import Mathlib

/-!
Shallow embedding of the tile grid in `src/geo/tiles.cc` (class `valhalla::geo::Tiles`).
Coordinates are modelled as rationals; C++ `int` values become `Int`, with C++
truncating integer division rendered as `Int.tdiv` and the `(int)` cast of a
nonnegative float rendered as truncation toward zero on `ℚ`.
-/

namespace Valhalla

/-- A 2-D point. In the source, `Point2` is constructed as `Point2(y, x)` and read
back with `.y()` and `.x()`; we keep that coordinate order. -/
structure Point2 where
  y : ℚ
  x : ℚ
deriving DecidableEq

/-- Axis-aligned bounding box; the source constructor order is
`AABB2(miny, minx, maxy, maxx)`. -/
structure AABB2 where
  miny : ℚ
  minx : ℚ
  maxy : ℚ
  maxx : ℚ
deriving DecidableEq

/-- Modelled from the spec: the repository does not ship `AABB2::Center`; §6 of the
spec assumes a `center()` operation returning the midpoint of the rectangle. -/
def AABB2.Center (b : AABB2) : Point2 :=
  ⟨(b.miny + b.maxy) / 2, (b.minx + b.maxx) / 2⟩

/-- Modelled from the spec: the repository does not ship `AABB2::Intersects`; §6 of
the spec assumes `intersects` is true iff the rectangles share any area or
boundary, with standard closed-interval semantics. -/
def AABB2.Intersects (a b : AABB2) : Prop :=
  a.minx ≤ b.maxx ∧ b.minx ≤ a.maxx ∧ a.miny ≤ b.maxy ∧ b.miny ≤ a.maxy

instance (a b : AABB2) : Decidable (a.Intersects b) := by
  unfold AABB2.Intersects; infer_instance

/-- Truncation toward zero, the semantics of the C++ `(int)` cast on a float. -/
def truncQ (q : ℚ) : Int :=
  if 0 ≤ q then ⌊q⌋ else ⌈q⌉

/-- The tile grid: stored bounds and tile size (`tilebounds_`, `tilesize_`). -/
structure Tiles where
  tilebounds : AABB2
  tilesize : ℚ
deriving DecidableEq

namespace Tiles

/-- `ncolumns_`, computed in the constructor as `(int) ceil((maxx - minx) / tilesize)`. -/
def ncolumns (g : Tiles) : Int :=
  ⌈(g.tilebounds.maxx - g.tilebounds.minx) / g.tilesize⌉

/-- `nrows_`, computed in the constructor as `(int) ceil((maxy - miny) / tilesize)`. -/
def nrows (g : Tiles) : Int :=
  ⌈(g.tilebounds.maxy - g.tilebounds.miny) / g.tilesize⌉

/-- `Tiles::Row`. -/
def Row (g : Tiles) (y : ℚ) : Int :=
  if y < g.tilebounds.miny ∨ y > g.tilebounds.maxy then -1
  else if y = g.tilebounds.maxy then g.nrows - 1
  else truncQ ((y - g.tilebounds.miny) / g.tilesize)

/-- `Tiles::Col`. -/
def Col (g : Tiles) (x : ℚ) : Int :=
  if x < g.tilebounds.minx ∨ x > g.tilebounds.maxx then -1
  else if x = g.tilebounds.maxx then g.ncolumns - 1
  else
    let col := (x - g.tilebounds.minx) / g.tilesize
    if 0 ≤ col then truncQ col else truncQ col - 1

/-- `Tiles::TileId(const float y, const float x)`. -/
def TileIdYX (g : Tiles) (y x : ℚ) : Int :=
  if y < g.tilebounds.miny ∨ x < g.tilebounds.minx ∨
      y > g.tilebounds.maxy ∨ x > g.tilebounds.maxx then -1
  else g.Row y * g.ncolumns + g.Col x

/-- `Tiles::TileId(const Point2&)`. -/
def TileIdP (g : Tiles) (c : Point2) : Int :=
  g.TileIdYX c.y c.x

/-- `Tiles::TileId(const int col, const int row)`. -/
def TileIdCR (g : Tiles) (col row : Int) : Int :=
  row * g.ncolumns + col

/-- `Tiles::Base`: the minimum corner of a tile. C++ `int` division truncates
toward zero, hence `Int.tdiv`. -/
def Base (g : Tiles) (tileid : Int) : Point2 :=
  let row := tileid.tdiv g.ncolumns
  let col := tileid - row * g.ncolumns
  ⟨g.tilebounds.miny + row * g.tilesize, g.tilebounds.minx + col * g.tilesize⟩

/-- `Tiles::TileBounds(const int tileid)`. -/
def TileBoundsId (g : Tiles) (tileid : Int) : AABB2 :=
  let base := g.Base tileid
  ⟨base.y, base.x, base.y + g.tilesize, base.x + g.tilesize⟩

/-- `Tiles::Center`. -/
def CenterOf (g : Tiles) (tileid : Int) : Point2 :=
  let base := g.Base tileid
  ⟨base.y + g.tilesize * (1/2), base.x + g.tilesize * (1/2)⟩

/-- `Tiles::TileCount`: `ncolumns_ * (int) ceil((maxy - miny) / tilesize)`. -/
def TileCount (g : Tiles) : Int :=
  g.ncolumns * ⌈(g.tilebounds.maxy - g.tilebounds.miny) / g.tilesize⌉

/-- `Tiles::RightNeighbor`. -/
def RightNeighbor (g : Tiles) (tileid : Int) : Int :=
  let row := tileid.tdiv g.ncolumns
  let col := tileid - row * g.ncolumns
  if col < g.ncolumns - 1 then tileid + 1 else tileid - g.ncolumns + 1

/-- `Tiles::LeftNeighbor`. -/
def LeftNeighbor (g : Tiles) (tileid : Int) : Int :=
  let row := tileid.tdiv g.ncolumns
  let col := tileid - row * g.ncolumns
  if col > 0 then tileid - 1 else tileid + g.ncolumns - 1

/-- `Tiles::TopNeighbor`. -/
def TopNeighbor (g : Tiles) (tileid : Int) : Int :=
  if tileid < g.TileCount - g.ncolumns then tileid + g.ncolumns else tileid

/-- `Tiles::BottomNeighbor`. -/
def BottomNeighbor (g : Tiles) (tileid : Int) : Int :=
  if tileid < g.ncolumns then tileid else tileid - g.ncolumns

end Tiles

/-- The transient query state of a `TileList` call: the FIFO `checklist_`, the
visited-id set `visitedtiles_` (a map used only for membership, modelled as a
list), and the result sequence `tilelist_`. -/
structure TState where
  checklist : List Int
  visitedtiles : List Int
  tilelist : List Int
deriving DecidableEq

/-- `Tiles::InList`: membership in `visitedtiles_`. -/
def TState.InList (st : TState) (id : Int) : Prop :=
  id ∈ st.visitedtiles

instance (st : TState) (id : Int) : Decidable (st.InList id) := by
  unfold TState.InList; infer_instance

namespace Tiles

/-- One guarded push of `addNeighbors`: enqueue `n` and mark it visited unless it
equals the current tile or is already in the visited set. -/
def addNeighbor (tileid n : Int) (st : TState) : TState :=
  if n ≠ tileid ∧ ¬ st.InList n then
    ⟨st.checklist ++ [n], n :: st.visitedtiles, st.tilelist⟩
  else st

/-- `Tiles::addNeighbors`: left, right, top, bottom, in source order. -/
def addNeighbors (g : Tiles) (tileid : Int) (st : TState) : TState :=
  addNeighbor tileid (g.BottomNeighbor tileid)
    (addNeighbor tileid (g.TopNeighbor tileid)
      (addNeighbor tileid (g.RightNeighbor tileid)
        (addNeighbor tileid (g.LeftNeighbor tileid) st)))

/-- `Tiles::NextTile`: pop the front of `checklist_` until a tile whose bounds
intersect the query box is found (then enqueue its neighbors and return it), or
return `-1` when the queue empties. -/
def NextTile (g : Tiles) (bb : AABB2) :
    List Int → List Int → List Int → Int × TState
  | [], visited, tiles => (-1, ⟨[], visited, tiles⟩)
  | tileid :: rest, visited, tiles =>
    if bb.Intersects (g.TileBoundsId tileid) then
      (tileid, g.addNeighbors tileid ⟨rest, visited, tiles⟩)
    else NextTile g bb rest visited tiles

/-- The `while ((tileid = NextTile(boundingbox)) >= 0)` loop of `TileList`,
with an explicit fuel parameter bounding the number of `NextTile` calls. -/
def tileLoop (g : Tiles) (bb : AABB2) (maxtiles : Nat) : Nat → TState → TState
  | 0, st => st
  | fuel + 1, st =>
    let r := NextTile g bb st.checklist st.visitedtiles st.tilelist
    if 0 ≤ r.1 then
      let st2 : TState := ⟨r.2.checklist, r.2.visitedtiles, r.2.tilelist ++ [r.1]⟩
      if st2.tilelist.length = maxtiles then st2
      else tileLoop g bb maxtiles fuel st2
    else r.2

/-- `Tiles::TileList` at an explicit fuel: clear the scratch state, seed from the
tile containing the center of the query box (returning `[]` when the center is
outside the grid), then run the bounded search loop. -/
def TileListFuel (g : Tiles) (bb : AABB2) (maxtiles fuel : Nat) : List Int :=
  let tileid := g.TileIdP bb.Center
  if tileid = -1 then []
  else
    let st0 := g.addNeighbors tileid ⟨[], [tileid], [tileid]⟩
    (tileLoop g bb maxtiles fuel st0).tilelist

/-- `Tiles::TileList`, run with enough fuel for the loop to reach its fixpoint
on every grid satisfying the data-model invariants (shown in the termination
theorem below). -/
def TileList (g : Tiles) (bb : AABB2) (maxtiles : Nat) : List Int :=
  TileListFuel g bb maxtiles (5 * g.TileCount.toNat + 5)

end Tiles

/-- The 4x4 example grid of §8 of the spec: bounds `(0,0)-(4,4)`, tile size 1. -/
def gW : Tiles := ⟨⟨0, 0, 4, 4⟩, 1⟩

/-- A query box centered at `(2,2)` that meets every tile of `gW`. -/
def bbW : AABB2 := ⟨1/2, 1/2, 7/2, 7/2⟩

/-- A query box whose center lies outside the bounds of `gW`. -/
def bbOut : AABB2 := ⟨10, 10, 12, 12⟩

/-- A grid whose tile size does not evenly divide its extent: bounds
`(0,0)-(1,1)`, tile size `7/10`, hence a 2x2 grid. -/
def g7 : Tiles := ⟨⟨0, 0, 1, 1⟩, 7/10⟩

/-- A 2x1 grid: bounds `(0,0)-(2,1)`, tile size 1, two tiles in one row. -/
def g2 : Tiles := ⟨⟨0, 0, 1, 2⟩, 1⟩

/-- A query box covering both tiles of `g2`, centered in tile 1. -/
def bb2 : AABB2 := ⟨0, 0, 1, 2⟩

/-!
## Arithmetic support lemmas
-/

theorem truncQ_of_nonneg {q : ℚ} (h : 0 ≤ q) : truncQ q = ⌊q⌋ := by
  unfold truncQ
  exact if_pos h

theorem ediv_emod_unique {n r c : Int} (hn : 0 < n) (hc0 : 0 ≤ c) (hcn : c < n) :
    (r * n + c) / n = r ∧ (r * n + c) % n = c := by
  constructor
  · rw [add_comm, Int.add_mul_ediv_right c r hn.ne', Int.ediv_eq_zero_of_lt hc0 hcn, zero_add]
  · rw [add_comm, mul_comm, Int.add_mul_emod_self_left, Int.emod_eq_of_lt hc0 hcn]

theorem sub_ediv_mul_eq_emod {n t : Int} : t - t / n * n = t % n := by
  have h := Int.ediv_add_emod t n
  linarith [h, mul_comm n (t / n)]

theorem tdiv_eq_of_nonneg {n t : Int} (ht : 0 ≤ t) (hn : 0 ≤ n) : t.tdiv n = t / n :=
  Int.tdiv_eq_ediv ht hn

namespace Tiles

/-!
## Grid geometry lemmas
-/

theorem TileCount_eq (g : Tiles) : g.TileCount = g.ncolumns * g.nrows := rfl

theorem nrows_pos {g : Tiles} (hts : 0 < g.tilesize)
    (hy : g.tilebounds.miny < g.tilebounds.maxy) : 0 < g.nrows :=
  Int.ceil_pos.2 (div_pos (sub_pos.2 hy) hts)

theorem ncolumns_pos {g : Tiles} (hts : 0 < g.tilesize)
    (hx : g.tilebounds.minx < g.tilebounds.maxx) : 0 < g.ncolumns :=
  Int.ceil_pos.2 (div_pos (sub_pos.2 hx) hts)

/-- On the closed top edge, `Row` is `nrows - 1` by the explicit test in the source. -/
theorem Row_eq_last {g : Tiles} {y : ℚ} (h1 : g.tilebounds.miny ≤ y)
    (heq : y = g.tilebounds.maxy) : g.Row y = g.nrows - 1 := by
  unfold Row
  rw [if_neg (by push_neg; exact ⟨h1, le_of_eq heq⟩), if_pos heq]

/-- Strictly inside the vertical extent, `Row` is the floor of the offset. -/
theorem Row_eq_floor {g : Tiles} (hts : 0 < g.tilesize) {y : ℚ}
    (h1 : g.tilebounds.miny ≤ y) (h2 : y < g.tilebounds.maxy) :
    g.Row y = ⌊(y - g.tilebounds.miny) / g.tilesize⌋ := by
  have hq0 : 0 ≤ (y - g.tilebounds.miny) / g.tilesize :=
    div_nonneg (by linarith) hts.le
  unfold Row
  rw [if_neg (by push_neg; exact ⟨h1, h2.le⟩), if_neg (ne_of_lt h2),
    truncQ_of_nonneg hq0]

/-- On the closed right edge, `Col` is `ncolumns - 1` by the explicit test in the source. -/
theorem Col_eq_last {g : Tiles} {x : ℚ} (h1 : g.tilebounds.minx ≤ x)
    (heq : x = g.tilebounds.maxx) : g.Col x = g.ncolumns - 1 := by
  unfold Col
  rw [if_neg (by push_neg; exact ⟨h1, le_of_eq heq⟩), if_pos heq]

/-- Strictly inside the horizontal extent, `Col` is the floor of the offset (the
nonnegative branch of the truncating cast applies). -/
theorem Col_eq_floor {g : Tiles} (hts : 0 < g.tilesize) {x : ℚ}
    (h1 : g.tilebounds.minx ≤ x) (h2 : x < g.tilebounds.maxx) :
    g.Col x = ⌊(x - g.tilebounds.minx) / g.tilesize⌋ := by
  have hq0 : 0 ≤ (x - g.tilebounds.minx) / g.tilesize :=
    div_nonneg (by linarith) hts.le
  unfold Col
  rw [if_neg (by push_neg; exact ⟨h1, h2.le⟩), if_neg (ne_of_lt h2)]
  show (if 0 ≤ (x - g.tilebounds.minx) / g.tilesize then
      truncQ ((x - g.tilebounds.minx) / g.tilesize)
    else truncQ ((x - g.tilebounds.minx) / g.tilesize) - 1) = _
  rw [if_pos hq0, truncQ_of_nonneg hq0]

/-- The floor of a scaled offset lies in `[0, ceil(e / ts))` and its cell
contains the offset. -/
theorem floor_div_spec {ts v e : ℚ} (hts : 0 < ts) (h0 : 0 ≤ v) (hlt : v < e) :
    0 ≤ ⌊v / ts⌋ ∧ ⌊v / ts⌋ < ⌈e / ts⌉ ∧
      (⌊v / ts⌋ : ℚ) * ts ≤ v ∧ v ≤ (⌊v / ts⌋ : ℚ) * ts + ts := by
  have hq0 : 0 ≤ v / ts := div_nonneg h0 hts.le
  have hvts : v / ts * ts = v := div_mul_cancel₀ _ hts.ne'
  have hets : e / ts * ts = e := div_mul_cancel₀ _ hts.ne'
  have hqe : v / ts < e / ts :=
    (mul_lt_mul_right hts).1 (by rw [hvts, hets]; exact hlt)
  refine ⟨Int.floor_nonneg.2 hq0, ?_, ?_, ?_⟩
  · exact Int.floor_lt.2 (lt_of_lt_of_le hqe (Int.le_ceil _))
  · have h3 : (⌊v / ts⌋ : ℚ) * ts ≤ v / ts * ts :=
      mul_le_mul_of_nonneg_right (Int.floor_le _) hts.le
    rwa [hvts] at h3
  · have h3 : v / ts * ts ≤ ((⌊v / ts⌋ : ℚ) + 1) * ts :=
      mul_le_mul_of_nonneg_right (Int.lt_floor_add_one _).le hts.le
    rw [hvts] at h3
    linarith

/-- The last cell of the ceil-sized grid contains the upper edge of the extent. -/
theorem ceil_last_spec {ts e : ℚ} (hts : 0 < ts) :
    ((⌈e / ts⌉ : ℚ) - 1) * ts ≤ e ∧ e ≤ (⌈e / ts⌉ : ℚ) * ts := by
  have hets : e / ts * ts = e := div_mul_cancel₀ _ hts.ne'
  constructor
  · have h3 : (⌈e / ts⌉ : ℚ) - 1 ≤ e / ts := by linarith [Int.ceil_lt_add_one (e / ts)]
    have h4 : ((⌈e / ts⌉ : ℚ) - 1) * ts ≤ e / ts * ts :=
      mul_le_mul_of_nonneg_right h3 hts.le
    rwa [hets] at h4
  · have h4 : e / ts * ts ≤ (⌈e / ts⌉ : ℚ) * ts :=
      mul_le_mul_of_nonneg_right (Int.le_ceil _) hts.le
    rwa [hets] at h4

/-- Inside the vertical extent, `Row` lands in `[0, nrows)` and its tile strip
contains the coordinate. -/
theorem Row_spec {g : Tiles} (hts : 0 < g.tilesize)
    (hy : g.tilebounds.miny < g.tilebounds.maxy) {y : ℚ}
    (h1 : g.tilebounds.miny ≤ y) (h2 : y ≤ g.tilebounds.maxy) :
    0 ≤ g.Row y ∧ g.Row y < g.nrows ∧
      g.tilebounds.miny + g.Row y * g.tilesize ≤ y ∧
      y ≤ g.tilebounds.miny + g.Row y * g.tilesize + g.tilesize := by
  have hnr : 0 < g.nrows := nrows_pos hts hy
  by_cases hmax : y = g.tilebounds.maxy
  · rw [Row_eq_last h1 hmax]
    obtain ⟨hlow, hhigh⟩ :=
      ceil_last_spec (e := g.tilebounds.maxy - g.tilebounds.miny) hts
    have hceil : (g.nrows : ℚ) = (⌈(g.tilebounds.maxy - g.tilebounds.miny) / g.tilesize⌉ : ℚ) :=
      rfl
    refine ⟨by omega, by omega, ?_, ?_⟩
    · rw [hmax]
      push_cast
      rw [hceil]
      linarith
    · rw [hmax]
      push_cast
      rw [hceil]
      linarith
  · have hlt : y < g.tilebounds.maxy := lt_of_le_of_ne h2 hmax
    rw [Row_eq_floor hts h1 hlt]
    obtain ⟨ha, hb, hc, hd⟩ :=
      floor_div_spec (v := y - g.tilebounds.miny) (e := g.tilebounds.maxy - g.tilebounds.miny) hts
        (by linarith) (by linarith)
    exact ⟨ha, hb, by linarith, by linarith⟩

/-- Inside the horizontal extent, `Col` lands in `[0, ncolumns)` and its tile
strip contains the coordinate. -/
theorem Col_spec {g : Tiles} (hts : 0 < g.tilesize)
    (hx : g.tilebounds.minx < g.tilebounds.maxx) {x : ℚ}
    (h1 : g.tilebounds.minx ≤ x) (h2 : x ≤ g.tilebounds.maxx) :
    0 ≤ g.Col x ∧ g.Col x < g.ncolumns ∧
      g.tilebounds.minx + g.Col x * g.tilesize ≤ x ∧
      x ≤ g.tilebounds.minx + g.Col x * g.tilesize + g.tilesize := by
  have hnc : 0 < g.ncolumns := ncolumns_pos hts hx
  by_cases hmax : x = g.tilebounds.maxx
  · rw [Col_eq_last h1 hmax]
    obtain ⟨hlow, hhigh⟩ :=
      ceil_last_spec (e := g.tilebounds.maxx - g.tilebounds.minx) hts
    have hceil : (g.ncolumns : ℚ) = (⌈(g.tilebounds.maxx - g.tilebounds.minx) / g.tilesize⌉ : ℚ) :=
      rfl
    refine ⟨by omega, by omega, ?_, ?_⟩
    · rw [hmax]
      push_cast
      rw [hceil]
      linarith
    · rw [hmax]
      push_cast
      rw [hceil]
      linarith
  · have hlt : x < g.tilebounds.maxx := lt_of_le_of_ne h2 hmax
    rw [Col_eq_floor hts h1 hlt]
    obtain ⟨ha, hb, hc, hd⟩ :=
      floor_div_spec (v := x - g.tilebounds.minx) (e := g.tilebounds.maxx - g.tilebounds.minx) hts
        (by linarith) (by linarith)
    exact ⟨ha, hb, by linarith, by linarith⟩

/-- `Base` recovers the corner of a validated `(col, row)` pair. -/
theorem Base_eq {g : Tiles} (hn : 0 < g.ncolumns) {row col : Int}
    (hr : 0 ≤ row) (hc0 : 0 ≤ col) (hcn : col < g.ncolumns) :
    g.Base (g.TileIdCR col row) =
      ⟨g.tilebounds.miny + row * g.tilesize, g.tilebounds.minx + col * g.tilesize⟩ := by
  have ht0 : 0 ≤ row * g.ncolumns + col := add_nonneg (mul_nonneg hr hn.le) hc0
  obtain ⟨hdiv, hmod⟩ := ediv_emod_unique (r := row) hn hc0 hcn
  have hcol : row * g.ncolumns + col - row * g.ncolumns = col := by ring
  simp only [Base, TileIdCR]
  rw [tdiv_eq_of_nonneg ht0 hn.le, hdiv, hcol]

/-- `RightNeighbor` in terms of Euclidean remainder, for nonnegative ids. -/
theorem RightNeighbor_eq {g : Tiles} (hn : 0 < g.ncolumns) {t : Int} (h0 : 0 ≤ t) :
    g.RightNeighbor t =
      if t % g.ncolumns < g.ncolumns - 1 then t + 1 else t - g.ncolumns + 1 := by
  show (if t - t.tdiv g.ncolumns * g.ncolumns < g.ncolumns - 1 then t + 1
    else t - g.ncolumns + 1) = _
  rw [tdiv_eq_of_nonneg h0 hn.le, sub_ediv_mul_eq_emod]

/-- `LeftNeighbor` in terms of Euclidean remainder, for nonnegative ids. -/
theorem LeftNeighbor_eq {g : Tiles} (hn : 0 < g.ncolumns) {t : Int} (h0 : 0 ≤ t) :
    g.LeftNeighbor t =
      if t % g.ncolumns > 0 then t - 1 else t + g.ncolumns - 1 := by
  show (if t - t.tdiv g.ncolumns * g.ncolumns > 0 then t - 1
    else t + g.ncolumns - 1) = _
  rw [tdiv_eq_of_nonneg h0 hn.le, sub_ediv_mul_eq_emod]

/-- On a grid with at least one column and one row, all four neighbor maps send
ids in `[0, TileCount)` back into `[0, TileCount)`. -/
theorem neighbor_in_range {g : Tiles} (hc : 0 < g.ncolumns) (hr : 0 < g.nrows)
    {t : Int} (h0 : 0 ≤ t) (h1 : t < g.TileCount) :
    (0 ≤ g.LeftNeighbor t ∧ g.LeftNeighbor t < g.TileCount) ∧
      (0 ≤ g.RightNeighbor t ∧ g.RightNeighbor t < g.TileCount) ∧
      (0 ≤ g.TopNeighbor t ∧ g.TopNeighbor t < g.TileCount) ∧
      (0 ≤ g.BottomNeighbor t ∧ g.BottomNeighbor t < g.TileCount) := by
  have hNe : g.TileCount = g.ncolumns * g.nrows := g.TileCount_eq
  have hd : g.ncolumns * (t / g.ncolumns) + t % g.ncolumns = t :=
    Int.ediv_add_emod t g.ncolumns
  have hc0 : 0 ≤ t % g.ncolumns := Int.emod_nonneg t hc.ne'
  have hcn : t % g.ncolumns < g.ncolumns := Int.emod_lt_of_pos t hc
  have hq0 : 0 ≤ t / g.ncolumns := Int.ediv_nonneg h0 hc.le
  have hqr : t / g.ncolumns < g.nrows := by
    rw [Int.ediv_lt_iff_lt_mul hc]
    rw [hNe] at h1
    linarith [h1, mul_comm g.ncolumns g.nrows]
  have p1 : g.ncolumns * (t / g.ncolumns) + g.ncolumns ≤ g.ncolumns * g.nrows := by
    have h2 : t / g.ncolumns + 1 ≤ g.nrows := by omega
    have h3 := mul_le_mul_of_nonneg_left h2 hc.le
    rw [mul_add, mul_one] at h3
    exact h3
  have pq0 : 0 ≤ g.ncolumns * (t / g.ncolumns) := mul_nonneg hc.le hq0
  refine ⟨?_, ?_, ?_, ?_⟩
  · rw [LeftNeighbor_eq hc h0]
    by_cases h : t % g.ncolumns > 0
    · rw [if_pos h]
      constructor
      · linarith
      · linarith
    · rw [if_neg h]
      constructor
      · linarith
      · rw [hNe]
        linarith
  · rw [RightNeighbor_eq hc h0]
    by_cases h : t % g.ncolumns < g.ncolumns - 1
    · rw [if_pos h]
      constructor
      · linarith
      · rw [hNe]
        linarith
    · rw [if_neg h]
      constructor
      · linarith
      · rw [hNe]
        linarith
  · unfold TopNeighbor
    by_cases h : t < g.TileCount - g.ncolumns
    · rw [if_pos h]
      constructor
      · linarith
      · linarith
    · rw [if_neg h]
      exact ⟨h0, h1⟩
  · unfold BottomNeighbor
    by_cases h : t < g.ncolumns
    · rw [if_pos h]
      exact ⟨h0, h1⟩
    · rw [if_neg h]
      constructor
      · linarith
      · linarith

end Tiles

/-!
## Claim theorems on coordinate and neighbor arithmetic
-/

/-- Claim C4: on a grid with positive tile size and non-degenerate bounds,
`Row` maps the top edge to the last row, `Col` maps the right edge to the last
column, and each returns the sentinel `-1` exactly on coordinates outside the
extent. -/
theorem row_col_edge_and_sentinel (g : Tiles) (hts : 0 < g.tilesize)
    (hx : g.tilebounds.minx < g.tilebounds.maxx)
    (hy : g.tilebounds.miny < g.tilebounds.maxy) :
    g.Row g.tilebounds.maxy = g.nrows - 1 ∧
      g.Col g.tilebounds.maxx = g.ncolumns - 1 ∧
      (∀ y : ℚ, g.Row y = -1 ↔ (y < g.tilebounds.miny ∨ y > g.tilebounds.maxy)) ∧
      (∀ x : ℚ, g.Col x = -1 ↔ (x < g.tilebounds.minx ∨ x > g.tilebounds.maxx)) := by
  refine ⟨Tiles.Row_eq_last hy.le rfl, Tiles.Col_eq_last hx.le rfl, ?_, ?_⟩
  · intro y
    constructor
    · intro heq
      by_contra hno
      push_neg at hno
      have h2 := (Tiles.Row_spec hts hy hno.1 hno.2).1
      rw [heq] at h2
      omega
    · intro h
      unfold Tiles.Row
      rw [if_pos h]
  · intro x
    constructor
    · intro heq
      by_contra hno
      push_neg at hno
      have h2 := (Tiles.Col_spec hts hx hno.1 hno.2).1
      rw [heq] at h2
      omega
    · intro h
      unfold Tiles.Col
      rw [if_pos h]

/-- Claim C5: on a grid with positive tile size and non-degenerate bounds, the
point-based `TileId` returns either the sentinel `-1` or an id in
`[0, TileCount - 1]`. -/
theorem tileIdP_sentinel_or_in_range (g : Tiles) (hts : 0 < g.tilesize)
    (hx : g.tilebounds.minx < g.tilebounds.maxx)
    (hy : g.tilebounds.miny < g.tilebounds.maxy) (p : Point2) :
    g.TileIdP p = -1 ∨ (0 ≤ g.TileIdP p ∧ g.TileIdP p ≤ g.TileCount - 1) := by
  unfold Tiles.TileIdP Tiles.TileIdYX
  by_cases hout : p.y < g.tilebounds.miny ∨ p.x < g.tilebounds.minx ∨
      p.y > g.tilebounds.maxy ∨ p.x > g.tilebounds.maxx
  · left
    rw [if_pos hout]
  · right
    rw [if_neg hout]
    push_neg at hout
    obtain ⟨hy1, hx1, hy2, hx2⟩ := hout
    obtain ⟨hr0, hrn, -, -⟩ := Tiles.Row_spec hts hy hy1 hy2
    obtain ⟨hc0, hcn, -, -⟩ := Tiles.Col_spec hts hx hx1 hx2
    have hnc : 0 < g.ncolumns := Tiles.ncolumns_pos hts hx
    have hNe : g.TileCount = g.ncolumns * g.nrows := g.TileCount_eq
    constructor
    · exact add_nonneg (mul_nonneg hr0 hnc.le) hc0
    · have h3 : g.Row p.y * g.ncolumns ≤ (g.nrows - 1) * g.ncolumns :=
        mul_le_mul_of_nonneg_right (by omega) hnc.le
      have h4 : (g.nrows - 1) * g.ncolumns + g.ncolumns = g.ncolumns * g.nrows := by ring
      rw [hNe]
      linarith

/-- Claim C8: with at least one column, the horizontal neighbor maps are
mutually inverse on every id in range (wraparound is a bijection on each row). -/
theorem left_right_neighbor_roundtrip (g : Tiles) (hc : 1 ≤ g.ncolumns) {t : Int}
    (h0 : 0 ≤ t) (hN : t < g.TileCount) :
    g.LeftNeighbor (g.RightNeighbor t) = t ∧ g.RightNeighbor (g.LeftNeighbor t) = t := by
  have hn : 0 < g.ncolumns := by omega
  have hd : g.ncolumns * (t / g.ncolumns) + t % g.ncolumns = t :=
    Int.ediv_add_emod t g.ncolumns
  have hc0 : 0 ≤ t % g.ncolumns := Int.emod_nonneg t hn.ne'
  have hcn : t % g.ncolumns < g.ncolumns := Int.emod_lt_of_pos t hn
  have hq0 : 0 ≤ t / g.ncolumns := Int.ediv_nonneg h0 hn.le
  have pq0 : 0 ≤ g.ncolumns * (t / g.ncolumns) := mul_nonneg hn.le hq0
  constructor
  · rw [Tiles.RightNeighbor_eq hn h0]
    by_cases h : t % g.ncolumns < g.ncolumns - 1
    · rw [if_pos h]
      have ha : t + 1 = (t / g.ncolumns) * g.ncolumns + (t % g.ncolumns + 1) := by
        linarith [mul_comm g.ncolumns (t / g.ncolumns)]
      have hmod : (t + 1) % g.ncolumns = t % g.ncolumns + 1 := by
        rw [ha]
        exact (ediv_emod_unique hn (by omega) (by omega)).2
      rw [Tiles.LeftNeighbor_eq hn (by omega), hmod, if_pos (by omega)]
      omega
    · rw [if_neg h]
      have hceq : t % g.ncolumns = g.ncolumns - 1 := by omega
      have ha : t - g.ncolumns + 1 = (t / g.ncolumns) * g.ncolumns + 0 := by
        rw [hceq] at hd
        linarith [mul_comm g.ncolumns (t / g.ncolumns)]
      have hmod : (t - g.ncolumns + 1) % g.ncolumns = 0 := by
        rw [ha]
        exact (ediv_emod_unique hn le_rfl hn).2
      rw [Tiles.LeftNeighbor_eq hn (by rw [ha]; positivity), hmod, if_neg (by omega)]
      omega
  · rw [Tiles.LeftNeighbor_eq hn h0]
    by_cases h : t % g.ncolumns > 0
    · rw [if_pos h]
      have ha : t - 1 = (t / g.ncolumns) * g.ncolumns + (t % g.ncolumns - 1) := by
        linarith [mul_comm g.ncolumns (t / g.ncolumns)]
      have hmod : (t - 1) % g.ncolumns = t % g.ncolumns - 1 := by
        rw [ha]
        exact (ediv_emod_unique hn (by omega) (by omega)).2
      rw [Tiles.RightNeighbor_eq hn (by linarith), hmod, if_pos (by omega)]
      omega
    · rw [if_neg h]
      have hceq : t % g.ncolumns = 0 := by omega
      have ha : t + g.ncolumns - 1 =
          (t / g.ncolumns) * g.ncolumns + (g.ncolumns - 1) := by
        rw [hceq] at hd
        linarith [mul_comm g.ncolumns (t / g.ncolumns)]
      have hmod : (t + g.ncolumns - 1) % g.ncolumns = g.ncolumns - 1 := by
        rw [ha]
        exact (ediv_emod_unique hn (by omega) (by omega)).2
      rw [Tiles.RightNeighbor_eq hn (by omega), hmod, if_neg (by omega)]
      omega

/-- Claim C9: `BottomNeighbor` fixes every tile of row 0, and `TopNeighbor`
fixes every tile of the last row — the vertical neighbor maps never wrap. -/
theorem vertical_neighbors_no_wrap (g : Tiles) {t s : Int}
    (h0 : 0 ≤ t) (ht : t < g.ncolumns)
    (hs1 : g.TileCount - g.ncolumns ≤ s) (hs2 : s < g.TileCount) :
    g.BottomNeighbor t = t ∧ g.TopNeighbor s = s := by
  constructor
  · unfold Tiles.BottomNeighbor
    rw [if_pos ht]
  · unfold Tiles.TopNeighbor
    rw [if_neg (not_lt.2 (by omega))]

/-!
## Search-state machinery for the `TileList` claims
-/

/-- Structure eta for the search state. -/
theorem TState.eta (st : TState) :
    (⟨st.checklist, st.visitedtiles, st.tilelist⟩ : TState) = st := rfl

namespace Tiles

/-- States whose result list cannot pick up a duplicate: both lists are
duplicate free, result and queue are disjoint, and both are recorded in the
visited set. -/
def GoodState (st : TState) : Prop :=
  st.tilelist.Nodup ∧ st.checklist.Nodup ∧
    (∀ x ∈ st.tilelist, x ∉ st.checklist) ∧
    (∀ x ∈ st.tilelist, x ∈ st.visitedtiles) ∧
    (∀ x ∈ st.checklist, x ∈ st.visitedtiles)

theorem addNeighbor_tilelist (tid n : Int) (st : TState) :
    (addNeighbor tid n st).tilelist = st.tilelist := by
  unfold addNeighbor
  split <;> rfl

theorem addNeighbor_visited_mono (tid n : Int) (st : TState) {x : Int}
    (h : x ∈ st.visitedtiles) : x ∈ (addNeighbor tid n st).visitedtiles := by
  unfold addNeighbor
  split
  · exact List.mem_cons_of_mem _ h
  · exact h

theorem addNeighbor_checklist_sub (tid n : Int) (st : TState) {x : Int}
    (h : x ∈ (addNeighbor tid n st).checklist) :
    x ∈ st.checklist ∨ x ∉ st.visitedtiles := by
  unfold addNeighbor at h
  split at h
  case isTrue hcond =>
    rw [List.mem_append, List.mem_singleton] at h
    rcases h with h | rfl
    · exact Or.inl h
    · exact Or.inr (fun hv => hcond.2 hv)
  case isFalse => exact Or.inl h

theorem addNeighbor_good (tid n : Int) (st : TState) (h : GoodState st) :
    GoodState (addNeighbor tid n st) := by
  unfold addNeighbor
  split
  case isTrue hcond =>
    obtain ⟨h1, h2, h3, h4, h5⟩ := h
    have hnv : n ∉ st.visitedtiles := fun hv => hcond.2 hv
    have hncl : n ∉ st.checklist := fun hmem => hnv (h5 n hmem)
    refine ⟨h1, ?_, ?_, ?_, ?_⟩
    · rw [List.nodup_append]
      exact ⟨h2, List.nodup_singleton n, fun a ha hb => by
        rw [List.mem_singleton] at hb
        exact hncl (hb ▸ ha)⟩
    · intro x hx
      rw [List.mem_append, List.mem_singleton]
      push_neg
      exact ⟨h3 x hx, fun heq => hnv (heq ▸ h4 x hx)⟩
    · intro x hx
      exact List.mem_cons_of_mem _ (h4 x hx)
    · intro x hx
      rw [List.mem_append, List.mem_singleton] at hx
      rcases hx with hx | rfl
      · exact List.mem_cons_of_mem _ (h5 x hx)
      · exact List.mem_cons_self _ _
  case isFalse => exact h

theorem addNeighbors_tilelist (g : Tiles) (tid : Int) (st : TState) :
    (g.addNeighbors tid st).tilelist = st.tilelist := by
  unfold addNeighbors
  rw [addNeighbor_tilelist, addNeighbor_tilelist, addNeighbor_tilelist,
    addNeighbor_tilelist]

theorem addNeighbors_visited_mono (g : Tiles) (tid : Int) (st : TState) {x : Int}
    (h : x ∈ st.visitedtiles) : x ∈ (g.addNeighbors tid st).visitedtiles :=
  addNeighbor_visited_mono _ _ _ (addNeighbor_visited_mono _ _ _
    (addNeighbor_visited_mono _ _ _ (addNeighbor_visited_mono _ _ _ h)))

theorem addNeighbors_checklist_sub (g : Tiles) (tid : Int) (st : TState) {x : Int}
    (h : x ∈ (g.addNeighbors tid st).checklist) :
    x ∈ st.checklist ∨ x ∉ st.visitedtiles := by
  unfold addNeighbors at h
  rcases addNeighbor_checklist_sub _ _ _ h with h | hnv
  rotate_left
  · exact Or.inr (fun hv => hnv (addNeighbor_visited_mono _ _ _
      (addNeighbor_visited_mono _ _ _ (addNeighbor_visited_mono _ _ _ hv))))
  rcases addNeighbor_checklist_sub _ _ _ h with h | hnv
  rotate_left
  · exact Or.inr (fun hv => hnv (addNeighbor_visited_mono _ _ _
      (addNeighbor_visited_mono _ _ _ hv)))
  rcases addNeighbor_checklist_sub _ _ _ h with h | hnv
  rotate_left
  · exact Or.inr (fun hv => hnv (addNeighbor_visited_mono _ _ _ hv))
  rcases addNeighbor_checklist_sub _ _ _ h with h | hnv
  · exact Or.inl h
  · exact Or.inr hnv

theorem addNeighbors_good (g : Tiles) (tid : Int) (st : TState)
    (h : GoodState st) : GoodState (g.addNeighbors tid st) :=
  addNeighbor_good _ _ _ (addNeighbor_good _ _ _
    (addNeighbor_good _ _ _ (addNeighbor_good _ _ _ h)))

/-- Combined specification of one `NextTile` call: the result list is
untouched, the visited set only grows, a nonnegative returned id passed the
intersection test, and a good state stays good, including after the caller
appends the returned id to the result list. -/
theorem nextTile_spec (g : Tiles) (bb : AABB2) :
    ∀ (cl v tl : List Int) (id : Int) (st2 : TState),
      NextTile g bb cl v tl = (id, st2) →
      st2.tilelist = tl ∧
        (∀ x ∈ v, x ∈ st2.visitedtiles) ∧
        (0 ≤ id → bb.Intersects (g.TileBoundsId id)) ∧
        (GoodState ⟨cl, v, tl⟩ →
          GoodState st2 ∧
            (0 ≤ id → GoodState ⟨st2.checklist, st2.visitedtiles, tl ++ [id]⟩)) := by
  intro cl
  induction cl with
  | nil =>
    intro v tl id st2 heq
    rw [NextTile] at heq
    obtain ⟨rfl, rfl⟩ : id = -1 ∧ st2 = ⟨[], v, tl⟩ := by
      have h1 := congrArg Prod.fst heq
      have h2 := congrArg Prod.snd heq
      exact ⟨h1.symm, h2.symm⟩
    refine ⟨rfl, fun x hx => hx, fun h0 => absurd h0 (by omega), fun hG => ⟨hG, ?_⟩⟩
    intro h0
    exact absurd h0 (by omega)
  | cons tileid rest ih =>
    intro v tl id st2 heq
    rw [NextTile] at heq
    by_cases hI : bb.Intersects (g.TileBoundsId tileid)
    · rw [if_pos hI] at heq
      obtain ⟨rfl, rfl⟩ : tileid = id ∧ g.addNeighbors tileid ⟨rest, v, tl⟩ = st2 := by
        have h1 := congrArg Prod.fst heq
        have h2 := congrArg Prod.snd heq
        exact ⟨h1, h2⟩
      refine ⟨addNeighbors_tilelist _ _ _, ?_, fun _ => hI, ?_⟩
      · intro x hx
        exact addNeighbors_visited_mono _ _ _ hx
      · intro hG
        obtain ⟨g1, g2, g3, g4, g5⟩ := hG
        have hrest : GoodState ⟨rest, v, tl⟩ := by
          rw [List.nodup_cons] at g2
          exact ⟨g1, g2.2, fun x hx hmem => g3 x hx (List.mem_cons_of_mem _ hmem),
            g4, fun x hx => g5 x (List.mem_cons_of_mem _ hx)⟩
        have hGood := addNeighbors_good g tileid _ hrest
        refine ⟨hGood, fun _ => ?_⟩
        have htl : (g.addNeighbors tileid ⟨rest, v, tl⟩).tilelist = tl :=
          addNeighbors_tilelist _ _ _
        have htv : tileid ∈ v := g5 tileid (List.mem_cons_self _ _)
        have htncl : tileid ∉ (g.addNeighbors tileid ⟨rest, v, tl⟩).checklist := by
          intro hmem
          rcases addNeighbors_checklist_sub _ _ _ hmem with hmem | hnv
          · rw [List.nodup_cons] at g2
            exact g2.1 hmem
          · exact hnv htv
        have htntl : tileid ∉ tl := fun hmem =>
          g3 tileid hmem (List.mem_cons_self _ _)
        obtain ⟨k1, k2, k3, k4, k5⟩ := hGood
        rw [htl] at k1 k3 k4
        refine ⟨?_, k2, ?_, ?_, k5⟩
        · rw [List.nodup_append]
          exact ⟨k1, List.nodup_singleton _, fun a ha hb => by
            rw [List.mem_singleton] at hb
            exact htntl (hb ▸ ha)⟩
        · intro x hx
          rw [List.mem_append, List.mem_singleton] at hx
          rcases hx with hx | rfl
          · exact k3 x hx
          · exact htncl
        · intro x hx
          rw [List.mem_append, List.mem_singleton] at hx
          rcases hx with hx | rfl
          · exact k4 x hx
          · exact addNeighbors_visited_mono _ _ _ htv
    · rw [if_neg hI] at heq
      obtain ⟨e1, e2, e3, e4⟩ := ih v tl id st2 heq
      refine ⟨e1, e2, e3, ?_⟩
      intro hG
      obtain ⟨g1, g2, g3, g4, g5⟩ := hG
      apply e4
      rw [List.nodup_cons] at g2
      exact ⟨g1, g2.2, fun x hx hmem => g3 x hx (List.mem_cons_of_mem _ hmem),
        g4, fun x hx => g5 x (List.mem_cons_of_mem _ hx)⟩

end Tiles

namespace Tiles

/-- Range invariant for the termination argument: the visited set is duplicate
free, lives inside `[0, TileCount)`, and records every queued id. -/
def RInv (g : Tiles) (st : TState) : Prop :=
  st.visitedtiles.Nodup ∧
    (∀ x ∈ st.visitedtiles, 0 ≤ x ∧ x < g.TileCount) ∧
    (∀ x ∈ st.checklist, x ∈ st.visitedtiles)

/-- Termination measure of the search loop: queued work plus five units for
every tile not yet visited. -/
def meas (g : Tiles) (st : TState) : Nat :=
  st.checklist.length + 5 * (g.TileCount.toNat - st.visitedtiles.length)

theorem visited_length_le {g : Tiles} {st : TState} (h : RInv g st) :
    st.visitedtiles.length ≤ g.TileCount.toNat := by
  obtain ⟨h1, h2, -⟩ := h
  have hcard : st.visitedtiles.toFinset.card = st.visitedtiles.length :=
    List.toFinset_card_of_nodup h1
  have hsub : st.visitedtiles.toFinset ⊆ Finset.Ico 0 g.TileCount := by
    intro x hx
    rw [List.mem_toFinset] at hx
    rw [Finset.mem_Ico]
    exact h2 x hx
  have hle := Finset.card_le_card hsub
  rw [hcard, Int.card_Ico] at hle
  omega

theorem addNeighbor_step {g : Tiles} (tid n : Int) (st : TState)
    (hR : RInv g st) (hn : 0 ≤ n ∧ n < g.TileCount) :
    RInv g (addNeighbor tid n st) ∧ meas g (addNeighbor tid n st) ≤ meas g st := by
  unfold addNeighbor
  split
  case isTrue hcond =>
    obtain ⟨h1, h2, h3⟩ := hR
    have hnv : n ∉ st.visitedtiles := fun hv => hcond.2 hv
    have hR2 : RInv g ⟨st.checklist ++ [n], n :: st.visitedtiles, st.tilelist⟩ := by
      refine ⟨List.nodup_cons.2 ⟨hnv, h1⟩, ?_, ?_⟩
      · intro x hx
        rcases List.mem_cons.1 hx with rfl | hx
        · exact hn
        · exact h2 x hx
      · intro x hx
        rw [List.mem_append, List.mem_singleton] at hx
        rcases hx with hx | rfl
        · exact List.mem_cons_of_mem _ (h3 x hx)
        · exact List.mem_cons_self _ _
    refine ⟨hR2, ?_⟩
    have hlen := visited_length_le hR2
    rw [List.length_cons] at hlen
    unfold meas
    simp only [List.length_append, List.length_singleton, List.length_cons,
      List.length_nil]
    omega
  case isFalse => exact ⟨hR, le_rfl⟩

theorem addNeighbors_step {g : Tiles} (hc : 0 < g.ncolumns) (hr : 0 < g.nrows)
    {tid : Int} (h0 : 0 ≤ tid) (h1 : tid < g.TileCount) (st : TState)
    (hR : RInv g st) :
    RInv g (g.addNeighbors tid st) ∧ meas g (g.addNeighbors tid st) ≤ meas g st := by
  obtain ⟨hL, hRi, hT, hB⟩ := neighbor_in_range hc hr h0 h1
  unfold addNeighbors
  obtain ⟨s1, m1⟩ := addNeighbor_step tid (g.LeftNeighbor tid) st hR hL
  obtain ⟨s2, m2⟩ := addNeighbor_step tid (g.RightNeighbor tid) _ s1 hRi
  obtain ⟨s3, m3⟩ := addNeighbor_step tid (g.TopNeighbor tid) _ s2 hT
  obtain ⟨s4, m4⟩ := addNeighbor_step tid (g.BottomNeighbor tid) _ s3 hB
  exact ⟨s4, le_trans m4 (le_trans m3 (le_trans m2 m1))⟩

/-- One successful `NextTile` call strictly decreases the measure and
preserves the range invariant. -/
theorem nextTile_step {g : Tiles} {bb : AABB2} (hc : 0 < g.ncolumns)
    (hr : 0 < g.nrows) :
    ∀ (cl v tl : List Int) (id : Int) (st2 : TState),
      NextTile g bb cl v tl = (id, st2) → RInv g ⟨cl, v, tl⟩ →
      RInv g st2 ∧ (0 ≤ id → meas g st2 < meas g ⟨cl, v, tl⟩) := by
  intro cl
  induction cl with
  | nil =>
    intro v tl id st2 heq hR
    rw [NextTile] at heq
    obtain ⟨rfl, rfl⟩ : id = -1 ∧ st2 = ⟨[], v, tl⟩ :=
      ⟨(congrArg Prod.fst heq).symm, (congrArg Prod.snd heq).symm⟩
    exact ⟨hR, fun h0 => absurd h0 (by omega)⟩
  | cons tileid rest ih =>
    intro v tl id st2 heq hR
    obtain ⟨h1, h2, h3⟩ := hR
    have hrest : RInv g ⟨rest, v, tl⟩ :=
      ⟨h1, h2, fun x hx => h3 x (List.mem_cons_of_mem _ hx)⟩
    have hmeas : meas g (⟨rest, v, tl⟩ : TState) + 1 =
        meas g (⟨tileid :: rest, v, tl⟩ : TState) := by
      unfold meas
      simp only [List.length_cons]
      omega
    rw [NextTile] at heq
    by_cases hI : bb.Intersects (g.TileBoundsId tileid)
    · rw [if_pos hI] at heq
      obtain ⟨rfl, rfl⟩ : tileid = id ∧ g.addNeighbors tileid ⟨rest, v, tl⟩ = st2 :=
        ⟨congrArg Prod.fst heq, congrArg Prod.snd heq⟩
      have htv := h3 tileid (List.mem_cons_self _ _)
      obtain ⟨hid0, hidN⟩ := h2 tileid htv
      obtain ⟨hR2, hm⟩ := addNeighbors_step hc hr hid0 hidN _ hrest
      exact ⟨hR2, fun _ => by omega⟩
    · rw [if_neg hI] at heq
      obtain ⟨hR2, hm⟩ := ih v tl id st2 heq hrest
      exact ⟨hR2, fun h0 => by have := hm h0; omega⟩

/-- The search loop never produces a duplicate id from a good state. -/
theorem tileLoop_nodup {g : Tiles} {bb : AABB2} {maxtiles : Nat} :
    ∀ (fuel : Nat) (st : TState), GoodState st →
      ((tileLoop g bb maxtiles fuel st).tilelist).Nodup := by
  intro fuel
  induction fuel with
  | zero =>
    intro st h
    exact h.1
  | succ a ih =>
    intro st h
    rcases hNT : NextTile g bb st.checklist st.visitedtiles st.tilelist with ⟨id, st2⟩
    obtain ⟨e1, e2, e3, e4⟩ := nextTile_spec g bb _ _ _ _ _ hNT
    obtain ⟨hG2, hGpush⟩ := e4 (by rw [TState.eta]; exact h)
    rw [tileLoop]
    simp only [hNT]
    by_cases h0 : 0 ≤ id
    · rw [if_pos h0]
      have hGP := hGpush h0
      rw [← e1] at hGP
      split
      · exact hGP.1
      · exact ih _ hGP
    · rw [if_neg h0]
      exact hG2.1

/-- The search loop only ever appends ids whose tile bounds meet the query
box. -/
theorem tileLoop_inter {g : Tiles} {bb : AABB2} {maxtiles : Nat} :
    ∀ (fuel : Nat) (st : TState),
      (∀ x ∈ st.tilelist, bb.Intersects (g.TileBoundsId x)) →
      ∀ x ∈ (tileLoop g bb maxtiles fuel st).tilelist,
        bb.Intersects (g.TileBoundsId x) := by
  intro fuel
  induction fuel with
  | zero =>
    intro st h
    exact h
  | succ a ih =>
    intro st h
    rcases hNT : NextTile g bb st.checklist st.visitedtiles st.tilelist with ⟨id, st2⟩
    obtain ⟨e1, e2, e3, e4⟩ := nextTile_spec g bb _ _ _ _ _ hNT
    rw [tileLoop]
    simp only [hNT]
    have hps : ∀ x ∈ st2.tilelist ++ [id], bb.Intersects (g.TileBoundsId x) → True := fun _ _ _ => trivial
    by_cases h0 : 0 ≤ id
    · rw [if_pos h0]
      have hstep : ∀ x ∈ st2.tilelist ++ [id], bb.Intersects (g.TileBoundsId x) := by
        intro x hx
        rw [List.mem_append, List.mem_singleton] at hx
        rcases hx with hx | rfl
        · rw [e1] at hx
          exact h x hx
        · exact e3 h0
      split
      · exact hstep
      · exact ih _ hstep
    · rw [if_neg h0]
      rw [e1]
      exact h

/-- Fuel irrelevance: once the fuel exceeds the measure, the loop result no
longer depends on it — the concrete loop terminates. -/
theorem tileLoop_stable {g : Tiles} {bb : AABB2} {maxtiles : Nat}
    (hc : 0 < g.ncolumns) (hr : 0 < g.nrows) :
    ∀ (f1 : Nat) (st : TState) (f2 : Nat), RInv g st →
      meas g st < f1 → meas g st < f2 →
      tileLoop g bb maxtiles f1 st = tileLoop g bb maxtiles f2 st := by
  intro f1
  induction f1 with
  | zero =>
    intro st f2 hR h1 h2
    omega
  | succ a ih =>
    intro st f2 hR h1 h2
    obtain ⟨b, rfl⟩ : ∃ b, f2 = b + 1 := ⟨f2 - 1, by omega⟩
    rcases hNT : NextTile g bb st.checklist st.visitedtiles st.tilelist with ⟨id, st2⟩
    obtain ⟨hR2, hm⟩ := nextTile_step hc hr _ _ _ _ _ hNT (by rw [TState.eta]; exact hR)
    rw [tileLoop, tileLoop]
    simp only [hNT]
    by_cases h0 : 0 ≤ id
    · rw [if_pos h0, if_pos h0]
      have hmlt := hm h0
      rw [TState.eta] at hmlt
      split
      · rfl
      · have h3 : meas g st2 < a := by omega
        have h4 : meas g st2 < b := by omega
        exact ih _ b hR2 h3 h4
    · rw [if_neg h0, if_neg h0]

end Tiles

namespace Tiles

/-- A point-based tile id that is not the sentinel came from coordinates inside
the extent, equals `Row * ncolumns + Col`, and lies in `[0, TileCount)`. -/
theorem tileIdP_inside_spec {g : Tiles} (hts : 0 < g.tilesize)
    (hx : g.tilebounds.minx < g.tilebounds.maxx)
    (hy : g.tilebounds.miny < g.tilebounds.maxy) {p : Point2}
    (hne : g.TileIdP p ≠ -1) :
    g.TileIdP p = g.Row p.y * g.ncolumns + g.Col p.x ∧
      g.tilebounds.miny ≤ p.y ∧ p.y ≤ g.tilebounds.maxy ∧
      g.tilebounds.minx ≤ p.x ∧ p.x ≤ g.tilebounds.maxx ∧
      0 ≤ g.TileIdP p ∧ g.TileIdP p < g.TileCount := by
  by_cases hout : p.y < g.tilebounds.miny ∨ p.x < g.tilebounds.minx ∨
      p.y > g.tilebounds.maxy ∨ p.x > g.tilebounds.maxx
  · exfalso
    apply hne
    unfold TileIdP TileIdYX
    rw [if_pos hout]
  · have heq : g.TileIdP p = g.Row p.y * g.ncolumns + g.Col p.x := by
      unfold TileIdP TileIdYX
      rw [if_neg hout]
    push_neg at hout
    obtain ⟨hy1, hx1, hy2, hx2⟩ := hout
    obtain ⟨hr0, hrn, -, -⟩ := Row_spec hts hy hy1 hy2
    obtain ⟨hc0, hcn, -, -⟩ := Col_spec hts hx hx1 hx2
    have hnc : 0 < g.ncolumns := ncolumns_pos hts hx
    refine ⟨heq, hy1, hy2, hx1, hx2, ?_, ?_⟩
    · rw [heq]
      exact add_nonneg (mul_nonneg hr0 hnc.le) hc0
    · rw [heq, TileCount_eq]
      have h3 : g.Row p.y * g.ncolumns ≤ (g.nrows - 1) * g.ncolumns :=
        mul_le_mul_of_nonneg_right (by omega) hnc.le
      have h4 : (g.nrows - 1) * g.ncolumns + g.ncolumns = g.ncolumns * g.nrows := by
        ring
      linarith

/-- The tile containing the center of a well-formed query box meets the box:
both contain the center point. -/
theorem seed_tile_intersects {g : Tiles} (hts : 0 < g.tilesize)
    (hx : g.tilebounds.minx < g.tilebounds.maxx)
    (hy : g.tilebounds.miny < g.tilebounds.maxy) {bb : AABB2}
    (hbx : bb.minx ≤ bb.maxx) (hby : bb.miny ≤ bb.maxy)
    (hne : g.TileIdP bb.Center ≠ -1) :
    bb.Intersects (g.TileBoundsId (g.TileIdP bb.Center)) := by
  obtain ⟨heq, hy1, hy2, hx1, hx2, -, -⟩ := tileIdP_inside_spec hts hx hy hne
  have hcy1 : bb.miny ≤ (bb.Center).y := by
    show bb.miny ≤ (bb.miny + bb.maxy) / 2
    linarith
  have hcy2 : (bb.Center).y ≤ bb.maxy := by
    show (bb.miny + bb.maxy) / 2 ≤ bb.maxy
    linarith
  have hcx1 : bb.minx ≤ (bb.Center).x := by
    show bb.minx ≤ (bb.minx + bb.maxx) / 2
    linarith
  have hcx2 : (bb.Center).x ≤ bb.maxx := by
    show (bb.minx + bb.maxx) / 2 ≤ bb.maxx
    linarith
  obtain ⟨hr0, hrn, hrl, hrh⟩ := Row_spec hts hy hy1 hy2
  obtain ⟨hc0, hcn, hcl, hch⟩ := Col_spec hts hx hx1 hx2
  have hnc : 0 < g.ncolumns := ncolumns_pos hts hx
  have hbase := Base_eq hnc hr0 hc0 hcn
  unfold TileIdCR at hbase
  rw [heq]
  simp only [TileBoundsId, hbase]
  refine ⟨?_, ?_, ?_, ?_⟩ <;> dsimp only <;> linarith

end Tiles

/-!
## Claim theorems on `TileList` and the center round trip
-/

/-- Claim C7 (amended): for a valid `(row, col)` pair whose tile center does
not leave the grid extent (which can happen in the last row or column when the
tile size does not evenly divide the extent), mapping the center back through
`Row` and `Col` recovers the pair. -/
theorem row_col_center_roundtrip (g : Tiles) (hts : 0 < g.tilesize)
    {row col : Int} (hr0 : 0 ≤ row) (hrn : row < g.nrows)
    (hc0 : 0 ≤ col) (hcn : col < g.ncolumns)
    (hcy : (g.CenterOf (g.TileIdCR col row)).y ≤ g.tilebounds.maxy)
    (hcx : (g.CenterOf (g.TileIdCR col row)).x ≤ g.tilebounds.maxx) :
    g.Row (g.CenterOf (g.TileIdCR col row)).y = row ∧
      g.Col (g.CenterOf (g.TileIdCR col row)).x = col := by
  have hn : 0 < g.ncolumns := lt_of_le_of_lt hc0 hcn
  have hbase := Tiles.Base_eq hn hr0 hc0 hcn
  have hyevl : (g.CenterOf (g.TileIdCR col row)).y =
      g.tilebounds.miny + ((row : ℚ) * g.tilesize + g.tilesize * (1/2)) := by
    simp only [Tiles.CenterOf, hbase]
    ring
  have hxevl : (g.CenterOf (g.TileIdCR col row)).x =
      g.tilebounds.minx + ((col : ℚ) * g.tilesize + g.tilesize * (1/2)) := by
    simp only [Tiles.CenterOf, hbase]
    ring
  have hr0q : (0:ℚ) ≤ (row : ℚ) := by exact_mod_cast hr0
  have hc0q : (0:ℚ) ≤ (col : ℚ) := by exact_mod_cast hc0
  have hposy : (0:ℚ) ≤ (row : ℚ) * g.tilesize + g.tilesize * (1/2) := by
    have := mul_nonneg hr0q hts.le
    linarith
  have hposx : (0:ℚ) ≤ (col : ℚ) * g.tilesize + g.tilesize * (1/2) := by
    have := mul_nonneg hc0q hts.le
    linarith
  have h12f : ⌊(1/2 : ℚ)⌋ = 0 := by
    rw [Int.floor_eq_iff]
    constructor <;> norm_num
  have h12c : ⌈(1/2 : ℚ)⌉ = 1 := by
    rw [Int.ceil_eq_iff]
    constructor <;> norm_num
  have hdivy : ((row : ℚ) * g.tilesize + g.tilesize * (1/2)) / g.tilesize =
      1/2 + (row : ℚ) := by
    rw [div_eq_iff hts.ne']
    ring
  have hdivx : ((col : ℚ) * g.tilesize + g.tilesize * (1/2)) / g.tilesize =
      1/2 + (col : ℚ) := by
    rw [div_eq_iff hts.ne']
    ring
  constructor
  · by_cases hmax : (g.CenterOf (g.TileIdCR col row)).y = g.tilebounds.maxy
    · rw [Tiles.Row_eq_last (by rw [hyevl]; linarith) hmax]
      have hnr2 : g.nrows = row + 1 := by
        have he : g.tilebounds.maxy - g.tilebounds.miny =
            (row : ℚ) * g.tilesize + g.tilesize * (1/2) := by
          rw [← hmax, hyevl]
          ring
        show ⌈(g.tilebounds.maxy - g.tilebounds.miny) / g.tilesize⌉ = row + 1
        rw [he, hdivy, Int.ceil_add_int, h12c]
        omega
      omega
    · have hlt := lt_of_le_of_ne hcy hmax
      rw [Tiles.Row_eq_floor hts (by rw [hyevl]; linarith) hlt]
      have he2 : (g.CenterOf (g.TileIdCR col row)).y - g.tilebounds.miny =
          (row : ℚ) * g.tilesize + g.tilesize * (1/2) := by
        rw [hyevl]
        ring
      rw [he2, hdivy, Int.floor_add_int, h12f]
      omega
  · by_cases hmax : (g.CenterOf (g.TileIdCR col row)).x = g.tilebounds.maxx
    · rw [Tiles.Col_eq_last (by rw [hxevl]; linarith) hmax]
      have hnc2 : g.ncolumns = col + 1 := by
        have he : g.tilebounds.maxx - g.tilebounds.minx =
            (col : ℚ) * g.tilesize + g.tilesize * (1/2) := by
          rw [← hmax, hxevl]
          ring
        show ⌈(g.tilebounds.maxx - g.tilebounds.minx) / g.tilesize⌉ = col + 1
        rw [he, hdivx, Int.ceil_add_int, h12c]
        omega
      omega
    · have hlt := lt_of_le_of_ne hcx hmax
      rw [Tiles.Col_eq_floor hts (by rw [hxevl]; linarith) hlt]
      have he2 : (g.CenterOf (g.TileIdCR col row)).x - g.tilebounds.minx =
          (col : ℚ) * g.tilesize + g.tilesize * (1/2) := by
        rw [hxevl]
        ring
      rw [he2, hdivx, Int.floor_add_int, h12f]
      omega

/-- Claim C3: when the center of the query box lies outside the grid bounds,
`TileList` returns the empty sequence, for every cap value. -/
theorem tileList_center_outside_empty (g : Tiles) (bb : AABB2) (maxtiles : Nat)
    (h : bb.Center.y < g.tilebounds.miny ∨ bb.Center.x < g.tilebounds.minx ∨
      bb.Center.y > g.tilebounds.maxy ∨ bb.Center.x > g.tilebounds.maxx) :
    g.TileList bb maxtiles = [] := by
  have hseed : g.TileIdP bb.Center = -1 := by
    unfold Tiles.TileIdP Tiles.TileIdYX
    rw [if_pos h]
  simp only [Tiles.TileList, Tiles.TileListFuel]
  rw [if_pos hseed]

/-- Claim C6: no tile id ever appears twice in a `TileList` result — ids are
marked visited when enqueued, so none is enqueued or appended twice. -/
theorem tileList_nodup (g : Tiles) (bb : AABB2) (maxtiles : Nat) :
    (g.TileList bb maxtiles).Nodup := by
  simp only [Tiles.TileList, Tiles.TileListFuel]
  by_cases hseed : g.TileIdP bb.Center = -1
  · rw [if_pos hseed]
    exact List.nodup_nil
  · rw [if_neg hseed]
    apply Tiles.tileLoop_nodup
    apply Tiles.addNeighbors_good
    refine ⟨List.nodup_singleton _, List.nodup_nil, ?_, ?_, ?_⟩
    · intro x hx hmem
      exact (List.not_mem_nil x) hmem
    · intro x hx
      exact hx
    · intro x hx
      exact absurd hx (List.not_mem_nil x)

/-- Claim C2: on a grid satisfying the data-model invariants and for a
well-formed query box, every id in the `TileList` result — the seed included —
has tile bounds intersecting the query box. -/
theorem tileList_mem_intersects (g : Tiles) (hts : 0 < g.tilesize)
    (hx : g.tilebounds.minx < g.tilebounds.maxx)
    (hy : g.tilebounds.miny < g.tilebounds.maxy)
    (bb : AABB2) (hbx : bb.minx ≤ bb.maxx) (hby : bb.miny ≤ bb.maxy)
    (maxtiles : Nat) :
    ∀ id ∈ g.TileList bb maxtiles, bb.Intersects (g.TileBoundsId id) := by
  simp only [Tiles.TileList, Tiles.TileListFuel]
  by_cases hseed : g.TileIdP bb.Center = -1
  · rw [if_pos hseed]
    intro id hid
    exact absurd hid (List.not_mem_nil id)
  · rw [if_neg hseed]
    apply Tiles.tileLoop_inter
    intro x hx2
    simp only [Tiles.addNeighbors_tilelist, List.mem_singleton] at hx2
    subst hx2
    exact Tiles.seed_tile_intersects hts hx hy hbx hby hseed

/-- Claim C10: on a grid satisfying the data-model invariants, the four
neighbor maps send `[0, TileCount)` into itself, and the `TileList` search
reaches its fixpoint within the stated fuel — giving it more fuel never
changes the result, so the concrete loop terminates. -/
theorem tileList_terminates (g : Tiles) (hts : 0 < g.tilesize)
    (hx : g.tilebounds.minx < g.tilebounds.maxx)
    (hy : g.tilebounds.miny < g.tilebounds.maxy) :
    (∀ t : Int, 0 ≤ t → t < g.TileCount →
      (0 ≤ g.LeftNeighbor t ∧ g.LeftNeighbor t < g.TileCount) ∧
        (0 ≤ g.RightNeighbor t ∧ g.RightNeighbor t < g.TileCount) ∧
        (0 ≤ g.TopNeighbor t ∧ g.TopNeighbor t < g.TileCount) ∧
        (0 ≤ g.BottomNeighbor t ∧ g.BottomNeighbor t < g.TileCount)) ∧
      ∀ (bb : AABB2) (maxtiles k : Nat),
        Tiles.TileListFuel g bb maxtiles (5 * g.TileCount.toNat + 5 + k) =
          g.TileList bb maxtiles := by
  have hc : 0 < g.ncolumns := Tiles.ncolumns_pos hts hx
  have hr : 0 < g.nrows := Tiles.nrows_pos hts hy
  constructor
  · intro t h0 h1
    exact Tiles.neighbor_in_range hc hr h0 h1
  · intro bb maxtiles k
    simp only [Tiles.TileList, Tiles.TileListFuel]
    by_cases hseed : g.TileIdP bb.Center = -1
    · rw [if_pos hseed, if_pos hseed]
    · rw [if_neg hseed, if_neg hseed]
      obtain ⟨-, -, -, -, -, h0, hN⟩ := Tiles.tileIdP_inside_spec hts hx hy hseed
      have hinit : Tiles.RInv g ⟨[], [g.TileIdP bb.Center], [g.TileIdP bb.Center]⟩ := by
        refine ⟨List.nodup_singleton _, ?_, ?_⟩
        · intro x hx2
          rw [List.mem_singleton] at hx2
          subst hx2
          exact ⟨h0, hN⟩
        · intro x hx2
          exact absurd hx2 (List.not_mem_nil x)
      have hminit : Tiles.meas g ⟨[], [g.TileIdP bb.Center], [g.TileIdP bb.Center]⟩ =
          5 * (g.TileCount.toNat - 1) := by
        unfold Tiles.meas
        simp
      obtain ⟨hR0, hm0⟩ := Tiles.addNeighbors_step hc hr h0 hN _ hinit
      have hNt : 1 ≤ g.TileCount.toNat := by omega
      exact congrArg TState.tilelist
        (Tiles.tileLoop_stable hc hr _ _ _ hR0 (by omega) (by omega))

/-!
## Concrete evaluations: the `maxTiles = 1` cap bug, the round-trip
counterexample, and witnesses for the conditional theorems
-/

section
attribute [local semireducible] Rat.add Rat.mul Rat.sub Rat.inv

/-- Claim C1, evaluated at the failing input: on the 2x1 grid with a query box
covering both tiles and `maxTiles = 1`, `TileList` returns two tiles. The cap
is only tested by equality after each push, and the result already holds the
seed when the loop starts, so sizes pass over the value 1 and the result
exceeds `maxTiles` — contrary to the stop rule the function documents. -/
theorem tileList_ignores_cap_of_one :
    g2.TileList bb2 1 = [1, 0] ∧ 1 < (g2.TileList bb2 1).length := by decide

/-- Claim C7, counterexample to the unamended statement: on the grid with
bounds `(0,0)-(1,1)` and tile size `7/10` (a 2x2 grid), the pair
`(row, col) = (1, 0)` is valid, yet the center of its tile lies above `maxy`,
so `Row` returns the sentinel `-1` instead of recovering the row. -/
theorem row_center_roundtrip_cex :
    0 < g7.tilesize ∧ (0 : Int) ≤ 1 ∧ 1 < g7.nrows ∧ (0 : Int) ≤ 0 ∧
      0 < g7.ncolumns ∧ g7.Row (g7.CenterOf (g7.TileIdCR 0 1)).y ≠ 1 := by decide

/-- Witness for the amended claim C7 at the 4x4 grid, `(row, col) = (2, 3)`. -/
theorem row_col_center_roundtrip_witness :
    (0 : ℚ) < gW.tilesize ∧ (0 : Int) ≤ 2 ∧ (2 : Int) < gW.nrows ∧
      (0 : Int) ≤ 3 ∧ (3 : Int) < gW.ncolumns ∧
      (gW.CenterOf (gW.TileIdCR 3 2)).y ≤ gW.tilebounds.maxy ∧
      (gW.CenterOf (gW.TileIdCR 3 2)).x ≤ gW.tilebounds.maxx ∧
      (gW.Row (gW.CenterOf (gW.TileIdCR 3 2)).y = 2 ∧
        gW.Col (gW.CenterOf (gW.TileIdCR 3 2)).x = 3) :=
  ⟨by decide, by decide, by decide, by decide, by decide, by decide, by decide,
    row_col_center_roundtrip gW (by decide) (by decide) (by decide) (by decide)
      (by decide) (by decide) (by decide)⟩

/-- Witness for claim C2 at the 4x4 grid and a query box meeting every tile. -/
theorem tileList_mem_intersects_witness :
    (0 : ℚ) < gW.tilesize ∧ gW.tilebounds.minx < gW.tilebounds.maxx ∧
      gW.tilebounds.miny < gW.tilebounds.maxy ∧ bbW.minx ≤ bbW.maxx ∧
      bbW.miny ≤ bbW.maxy ∧
      ∀ id ∈ gW.TileList bbW 7, bbW.Intersects (gW.TileBoundsId id) :=
  ⟨by decide, by decide, by decide, by decide, by decide,
    tileList_mem_intersects gW (by decide) (by decide) (by decide) bbW
      (by decide) (by decide) 7⟩

/-- Witness for claim C3 at a query box centered outside the 4x4 grid. -/
theorem tileList_center_outside_empty_witness :
    (bbOut.Center.y < gW.tilebounds.miny ∨ bbOut.Center.x < gW.tilebounds.minx ∨
      bbOut.Center.y > gW.tilebounds.maxy ∨ bbOut.Center.x > gW.tilebounds.maxx) ∧
      gW.TileList bbOut 5 = [] :=
  ⟨by decide, tileList_center_outside_empty gW bbOut 5 (by decide)⟩

/-- Witness for claim C4 at the 4x4 grid. -/
theorem row_col_edge_and_sentinel_witness :
    (0 : ℚ) < gW.tilesize ∧ gW.tilebounds.minx < gW.tilebounds.maxx ∧
      gW.tilebounds.miny < gW.tilebounds.maxy ∧
      (gW.Row gW.tilebounds.maxy = gW.nrows - 1 ∧
        gW.Col gW.tilebounds.maxx = gW.ncolumns - 1 ∧
        (∀ y : ℚ, gW.Row y = -1 ↔
          (y < gW.tilebounds.miny ∨ y > gW.tilebounds.maxy)) ∧
        (∀ x : ℚ, gW.Col x = -1 ↔
          (x < gW.tilebounds.minx ∨ x > gW.tilebounds.maxx))) :=
  ⟨by decide, by decide, by decide,
    row_col_edge_and_sentinel gW (by decide) (by decide) (by decide)⟩

/-- Witness for claim C5 at the 4x4 grid and the outside point `(5, 5)`. -/
theorem tileIdP_sentinel_or_in_range_witness :
    (0 : ℚ) < gW.tilesize ∧ gW.tilebounds.minx < gW.tilebounds.maxx ∧
      gW.tilebounds.miny < gW.tilebounds.maxy ∧
      (gW.TileIdP ⟨5, 5⟩ = -1 ∨
        (0 ≤ gW.TileIdP ⟨5, 5⟩ ∧ gW.TileIdP ⟨5, 5⟩ ≤ gW.TileCount - 1)) :=
  ⟨by decide, by decide, by decide,
    tileIdP_sentinel_or_in_range gW (by decide) (by decide) (by decide) ⟨5, 5⟩⟩

/-- Witness for claim C8 at the 4x4 grid and id 7 (last column of row 1). -/
theorem left_right_neighbor_roundtrip_witness :
    (1 : Int) ≤ gW.ncolumns ∧ (0 : Int) ≤ 7 ∧ (7 : Int) < gW.TileCount ∧
      (gW.LeftNeighbor (gW.RightNeighbor 7) = 7 ∧
        gW.RightNeighbor (gW.LeftNeighbor 7) = 7) :=
  ⟨by decide, by decide, by decide,
    left_right_neighbor_roundtrip gW (by decide) (by decide) (by decide)⟩

/-- Witness for claim C9 at the 4x4 grid: id 2 in row 0, id 14 in the last
row. -/
theorem vertical_neighbors_no_wrap_witness :
    (0 : Int) ≤ 2 ∧ (2 : Int) < gW.ncolumns ∧
      gW.TileCount - gW.ncolumns ≤ 14 ∧ (14 : Int) < gW.TileCount ∧
      (gW.BottomNeighbor 2 = 2 ∧ gW.TopNeighbor 14 = 14) :=
  ⟨by decide, by decide, by decide, by decide,
    vertical_neighbors_no_wrap gW (by decide) (by decide) (by decide) (by decide)⟩

/-- Witness for claim C10 at the 4x4 grid: two units of extra fuel change
nothing. -/
theorem tileList_terminates_witness :
    (0 : ℚ) < gW.tilesize ∧ gW.tilebounds.minx < gW.tilebounds.maxx ∧
      gW.tilebounds.miny < gW.tilebounds.maxy ∧
      Tiles.TileListFuel gW bbW 3 (5 * gW.TileCount.toNat + 5 + 2) =
        gW.TileList bbW 3 :=
  ⟨by decide, by decide, by decide,
    (tileList_terminates gW (by decide) (by decide) (by decide)).2 bbW 3 2⟩

end

end Valhalla
